import Mathlib

/-!
Shallow embedding of the daily-to-monthly stock pipeline (`src/main.py`).

The program is a four-stage pandas pipeline:
  1. `load_and_prepare_data`: read the CSV, parse the `date` column,
     stable-sort by `(ticker, date)` (`sort_values` on several columns is a
     stable lexicographic sort in pandas).
  2. `aggregate_to_monthly`: group by `(ticker, month-end)` and aggregate
     with the dict `{open: first, close: last, high: max, low: min,
     volume: sum}`; `reset_index` puts the group keys first, so the output
     column order is `ticker, date, open, close, high, low, volume`.
  3. `add_technical_indicators`: sort by `(ticker, date)` into a fresh
     frame, then assign four new columns computed by
     `groupby('ticker')['close'].transform` (rolling means with
     `window=k`, and `ewm(span=k, adjust=False)` means).
  4. `save_by_ticker`: for each ticker in first-appearance order
     (`unique()`), write the rows of that ticker, in table order, to
     `result_<TICKER>.csv` with `index=False` (header = the table columns,
     no row-index column).

DataFrames are embedded as a list of column names (`cols`) plus a list of
records; a column "exists" only if its name is in `cols`, and accessing a
missing column is a `KeyError`, which the spec's taxonomy calls
`SchemaError`.  An unparseable date raises in `pd.to_datetime`, which the
taxonomy calls `ParseError`.  The `__main__` driver wraps all four stages
in one `try`, so the first exception aborts the whole run; this is
embedded by making the pipeline `Except`-valued.
-/

namespace StockPipeline

open List

/-- Calendar dates, as produced by `pd.to_datetime` on `YYYY-MM-DD`
strings; ordered lexicographically by (year, month, day), which is the
chronological order pandas timestamps use. -/
structure Date where
  year : Nat
  month : Nat
  day : Nat
deriving DecidableEq

def isLeap (y : Nat) : Bool :=
  (y % 4 == 0 && y % 100 != 0) || (y % 400 == 0)

def daysInMonth (y m : Nat) : Nat :=
  if m = 2 then (if isLeap y then 29 else 28)
  else if m = 4 ∨ m = 6 ∨ m = 9 ∨ m = 11 then 30
  else 31

/-- Chronological (lexicographic) order on dates. -/
def dateLe (a b : Date) : Prop :=
  a.year < b.year ∨ (a.year = b.year ∧
    (a.month < b.month ∨ (a.month = b.month ∧ a.day ≤ b.day)))

instance : DecidableRel dateLe := fun a b => by
  unfold dateLe; infer_instance

theorem dateLe_refl (a : Date) : dateLe a a := by
  simp [dateLe]

theorem dateLe_trans {a b c : Date} (h₁ : dateLe a b) (h₂ : dateLe b c) :
    dateLe a c := by
  rcases a with ⟨ay, am, ad⟩; rcases b with ⟨by', bm, bd⟩; rcases c with ⟨cy, cm, cd⟩
  simp only [dateLe] at *
  omega

theorem dateLe_total (a b : Date) : dateLe a b ∨ dateLe b a := by
  rcases a with ⟨ay, am, ad⟩; rcases b with ⟨by', bm, bd⟩
  simp only [dateLe]
  omega

theorem dateLe_antisymm {a b : Date} (h₁ : dateLe a b) (h₂ : dateLe b a) :
    a = b := by
  rcases a with ⟨ay, am, ad⟩; rcases b with ⟨by', bm, bd⟩
  simp only [dateLe] at *
  simp only [Date.mk.injEq]
  omega

/-- Splits a character list at `'-'`, the separator of the ISO
`YYYY-MM-DD` dates the input file uses. -/
def splitDash (cs : List Char) : List (List Char) :=
  cs.foldr
    (fun c acc =>
      if c = '-' then [] :: acc
      else match acc with
        | g :: gs => (c :: g) :: gs
        | [] => [[c]])
    [[]]

/-- Digit-string to number; `none` on empty or non-digit input. -/
def digitsToNat (cs : List Char) : Option Nat :=
  if cs ≠ [] ∧ cs.all (·.isDigit) then
    some (cs.foldl (fun n c => 10 * n + (c.toNat - '0'.toNat)) 0)
  else none

/-- Embeds `pd.to_datetime` on one field, modelled for the conventional
`YYYY-MM-DD` textual format the spec names: three dash-separated numeric
components forming a valid calendar date.  Anything else fails. -/
def parseDate (s : String) : Option Date :=
  match splitDash s.data with
  | [ys, ms, ds] =>
    match digitsToNat ys, digitsToNat ms, digitsToNat ds with
    | some y, some m, some d =>
      if 1 ≤ m ∧ m ≤ 12 ∧ 1 ≤ d ∧ d ≤ daysInMonth y m then some ⟨y, m, d⟩
      else none
    | _, _, _ => none
  | _ => none

/-- One row of the raw CSV: the `date` field is still text. -/
structure RawRow where
  ticker : String
  date : String
  «open» : ℚ
  high : ℚ
  low : ℚ
  close : ℚ
  volume : Int
deriving DecidableEq

/-- A row of any DataFrame past the loader.  The four indicator fields
model the `SMA_10`/`SMA_20`/`EMA_10`/`EMA_20` columns; they hold `none`
(pandas `NaN`, or column absent) until assigned. -/
structure ERow where
  ticker : String
  date : Date
  «open» : ℚ
  high : ℚ
  low : ℚ
  close : ℚ
  volume : Int
  SMA_10 : Option ℚ := none
  SMA_20 : Option ℚ := none
  EMA_10 : Option ℚ := none
  EMA_20 : Option ℚ := none
deriving DecidableEq

/-- The raw DataFrame produced by `pd.read_csv`: the header (`cols`) and
the row data.  A field of `RawRow` is only readable when its column name
is present in `cols`; reading an absent column is a `KeyError`. -/
structure RawTable where
  cols : List String
  rows : List RawRow
deriving DecidableEq

/-- A DataFrame past the loader. -/
structure Table where
  cols : List String
  rows : List ERow
deriving DecidableEq

/-- The spec's error taxonomy (§7): `SchemaError` covers `KeyError` on a
missing column, `ParseError` covers `pd.to_datetime` failures, `IOError`
covers unreadable/unwritable locations. -/
inductive PError where
  | schemaError
  | parseError
  | ioError
deriving DecidableEq

/-- Code-point lexicographic comparison of character lists: the order
Python (and hence pandas/numpy) uses on the ticker strings. -/
def charListLt : List Char → List Char → Bool
  | [], [] => false
  | [], _ :: _ => true
  | _ :: _, [] => false
  | a :: as, b :: bs =>
    if a < b then true
    else if a = b then charListLt as bs
    else false

/-- Strict order on ticker strings. -/
def strLt (a b : String) : Prop := charListLt a.data b.data = true

instance : DecidableRel strLt := fun a b => by
  unfold strLt; infer_instance

theorem charListLt_irrefl : ∀ as, charListLt as as = false
  | [] => rfl
  | a :: as => by
    simp [charListLt, charListLt_irrefl as]

theorem charListLt_trans : ∀ as bs cs, charListLt as bs = true →
    charListLt bs cs = true → charListLt as cs = true
  | [], _ :: _, _ :: _, _, _ => rfl
  | a :: as, b :: bs, c :: cs, h₁, h₂ => by
    simp only [charListLt] at h₁ h₂ ⊢
    split at h₁
    · rename_i hab
      split at h₂
      · rename_i hbc
        rw [if_pos (lt_trans hab hbc)]
      · split at h₂
        · rename_i hbc
          rw [if_pos (hbc ▸ hab)]
        · exact absurd h₂ (by simp)
    · split at h₁
      · rename_i hab
        split at h₂
        · rename_i hbc
          rw [if_pos (hab ▸ hbc)]
        · split at h₂
          · rename_i hbc
            rw [if_neg (by rw [hab, hbc]; exact lt_irrefl c),
              if_pos (hab.trans hbc)]
            exact charListLt_trans as bs cs h₁ h₂
          · exact absurd h₂ (by simp)
      · exact absurd h₁ (by simp)

theorem charListLt_trichotomy : ∀ as bs,
    charListLt as bs = true ∨ as = bs ∨ charListLt bs as = true
  | [], [] => Or.inr (Or.inl rfl)
  | [], _ :: _ => Or.inl rfl
  | _ :: _, [] => Or.inr (Or.inr rfl)
  | a :: as, b :: bs => by
    rcases lt_trichotomy a b with h | h | h
    · exact Or.inl (by simp [charListLt, h])
    · subst h
      rcases charListLt_trichotomy as bs with h' | h' | h'
      · exact Or.inl (by simp [charListLt, h'])
      · exact Or.inr (Or.inl (by rw [h']))
      · exact Or.inr (Or.inr (by simp [charListLt, h']))
    · exact Or.inr (Or.inr (by simp [charListLt, h]))

theorem strLt_trans {a b c : String} (h₁ : strLt a b) (h₂ : strLt b c) :
    strLt a c :=
  charListLt_trans _ _ _ h₁ h₂

theorem strLt_irrefl (a : String) : ¬ strLt a a := by
  simp [strLt, charListLt_irrefl]

theorem strLt_asymm {a b : String} (h₁ : strLt a b) (h₂ : strLt b a) :
    False :=
  strLt_irrefl a (strLt_trans h₁ h₂)

theorem strLt_trichotomy (a b : String) :
    strLt a b ∨ a = b ∨ strLt b a := by
  rcases charListLt_trichotomy a.data b.data with h | h | h
  · exact Or.inl h
  · refine Or.inr (Or.inl ?_)
    cases a; cases b
    exact congrArg String.mk h
  · exact Or.inr (Or.inr h)

/-- The `sort_values(by=['ticker','date'])` comparison: lexicographic on
(ticker, date). -/
def rowle (a b : ERow) : Prop :=
  strLt a.ticker b.ticker ∨ (a.ticker = b.ticker ∧ dateLe a.date b.date)

instance : DecidableRel rowle := fun a b => by
  unfold rowle; infer_instance

instance : IsTrans ERow rowle where
  trans a b c h₁ h₂ := by
    rcases h₁ with h₁ | ⟨e₁, d₁⟩ <;> rcases h₂ with h₂ | ⟨e₂, d₂⟩
    · exact Or.inl (strLt_trans h₁ h₂)
    · exact Or.inl (e₂ ▸ h₁)
    · exact Or.inl (e₁ ▸ h₂)
    · exact Or.inr ⟨e₁.trans e₂, dateLe_trans d₁ d₂⟩

instance : IsTotal ERow rowle where
  total a b := by
    rcases strLt_trichotomy a.ticker b.ticker with h | h | h
    · exact Or.inl (Or.inl h)
    · rcases dateLe_total a.date b.date with hd | hd
      · exact Or.inl (Or.inr ⟨h, hd⟩)
      · exact Or.inr (Or.inr ⟨h.symm, hd⟩)
    · exact Or.inr (Or.inl h)

/-- Embeds `df.sort_values(by=['ticker','date'])`.  A multi-column pandas
`sort_values` is a stable lexicographic sort (`numpy.lexsort`); the stable
sort of a list by a total preorder is unique, so it is embedded as
insertion sort. -/
def sortRows (l : List ERow) : List ERow :=
  List.insertionSort rowle l

/-- Date parsing of one raw row (`pd.to_datetime` elementwise). -/
def parseRow (r : RawRow) : Option ERow :=
  (parseDate r.date).map fun d =>
    { ticker := r.ticker, date := d, «open» := r.«open», high := r.high,
      low := r.low, close := r.close, volume := r.volume }

/-- Embeds `pd.to_datetime(df['date'])`: every date must parse, otherwise the
whole call raises (`errors='raise'` is the default). -/
def parseRows : List RawRow → Option (List ERow)
  | [] => some []
  | r :: rs =>
    match parseRow r, parseRows rs with
    | some e, some es => some (e :: es)
    | _, _ => none

/-- Step 1, `load_and_prepare_data`: read the frame, parse `df['date']`
(`KeyError` if the column is absent, `ParseError` if a date does not
parse), then `sort_values(by=['ticker','date'])` (`KeyError` if `ticker`
is absent).  The column list is unchanged. -/
def load_and_prepare_data (t : RawTable) : Except PError Table :=
  if "date" ∈ t.cols then
    match parseRows t.rows with
    | none => .error .parseError
    | some rs =>
      if "ticker" ∈ t.cols then .ok ⟨t.cols, sortRows rs⟩
      else .error .schemaError
  else .error .schemaError

/-- The grouping key of `groupby(['ticker', pd.Grouper(key='date',
freq='ME')])`: the ticker together with the calendar month (year, month)
of the row's date. -/
def mkey (r : ERow) : String × Nat × Nat :=
  (r.ticker, r.date.year, r.date.month)

/-- Order on group keys: pandas `groupby(sort=True)` (the default) sorts
the group keys lexicographically. -/
def keyle (a b : String × Nat × Nat) : Prop :=
  strLt a.1 b.1 ∨ (a.1 = b.1 ∧
    (a.2.1 < b.2.1 ∨ (a.2.1 = b.2.1 ∧ a.2.2 ≤ b.2.2)))

instance : DecidableRel keyle := fun a b => by
  unfold keyle; infer_instance

instance : IsTrans (String × Nat × Nat) keyle where
  trans a b c h₁ h₂ := by
    rcases h₁ with h₁ | ⟨e₁, d₁⟩ <;> rcases h₂ with h₂ | ⟨e₂, d₂⟩
    · exact Or.inl (strLt_trans h₁ h₂)
    · exact Or.inl (e₂ ▸ h₁)
    · exact Or.inl (e₁ ▸ h₂)
    · exact Or.inr ⟨e₁.trans e₂, by omega⟩

instance : IsTotal (String × Nat × Nat) keyle where
  total a b := by
    rcases strLt_trichotomy a.1 b.1 with h | h | h
    · exact Or.inl (Or.inl h)
    · by_cases hy : a.2.1 < b.2.1
      · exact Or.inl (Or.inr ⟨h, Or.inl hy⟩)
      · by_cases hy' : b.2.1 < a.2.1
        · exact Or.inr (Or.inr ⟨h.symm, Or.inl hy'⟩)
        · rcases Nat.le_total a.2.2 b.2.2 with hd | hd
          · exact Or.inl (Or.inr ⟨h, Or.inr ⟨by omega, hd⟩⟩)
          · exact Or.inr (Or.inr ⟨h.symm, Or.inr ⟨by omega, hd⟩⟩)
    · exact Or.inr (Or.inl h)

instance : IsAntisymm (String × Nat × Nat) keyle where
  antisymm a b h₁ h₂ := by
    rcases h₁ with h₁ | ⟨e₁, d₁⟩ <;> rcases h₂ with h₂ | ⟨e₂, d₂⟩
    · exact absurd h₂ (fun h => strLt_asymm h₁ h)
    · exact absurd h₁ (e₂ ▸ strLt_irrefl _)
    · exact absurd h₂ (e₁ ▸ strLt_irrefl _)
    · refine Prod.ext e₁ (Prod.ext ?_ ?_) <;> omega

/-- The month-end label `freq='ME'` gives each group: the last calendar
day of the month. -/
def monthEnd (k : String × Nat × Nat) : Date :=
  ⟨k.2.1, k.2.2, daysInMonth k.2.1 k.2.2⟩

/-- The rows of one `(ticker, month)` group, in the order the frame
presents them (pandas groupby preserves within-group row order). -/
def groupRows (rows : List ERow) (k : String × Nat × Nat) : List ERow :=
  rows.filter (fun r => mkey r = k)

/-- Maximum of a list of values (`'max'` aggregation); `none` on empty. -/
def omax (l : List ℚ) : Option ℚ :=
  l.foldr (fun x acc => some (acc.elim x (max x))) none

/-- Minimum of a list of values (`'min'` aggregation); `none` on empty. -/
def omin (l : List ℚ) : Option ℚ :=
  l.foldr (fun x acc => some (acc.elim x (min x))) none

/-- The `'first'` aggregation: the field of the first presented row. -/
def firstField (f : ERow → ℚ) : List ERow → ℚ
  | [] => 0
  | r :: _ => f r

/-- The `'last'` aggregation: the field of the last presented row. -/
def lastField (f : ERow → ℚ) (g : List ERow) : ℚ :=
  match g.getLast? with
  | none => 0
  | some r => f r

/-- The monthly row one group reduces to, per the aggregation dict
`{open: first, close: last, high: max, low: min, volume: sum}`. -/
def aggRow (rows : List ERow) (k : String × Nat × Nat) : ERow :=
  let g := groupRows rows k
  { ticker := k.1
    date := monthEnd k
    «open» := firstField (·.«open») g
    close := lastField (·.close) g
    high := (omax (g.map (·.high))).getD 0
    low := (omin (g.map (·.low))).getD 0
    volume := (g.map (·.volume)).sum }

/-- The distinct group keys, in the sorted order `groupby(sort=True)`
emits them. -/
def sortedKeys (rows : List ERow) : List (String × Nat × Nat) :=
  List.insertionSort keyle ((rows.map mkey).dedup)

/-- The aggregation dict's keys, in source order. -/
def aggCols : List String := ["open", "close", "high", "low", "volume"]

/-- Columns of the monthly frame: `reset_index` puts the group keys
first, then the aggregated columns in dict order. -/
def monthlyCols : List String := ["ticker", "date"] ++ aggCols

/-- The column accesses `aggregate_to_monthly` performs: the two
`groupby` keys and the five aggregated columns. -/
def requiredCols : List String := monthlyCols

/-- The row part of the monthly aggregation: one row per distinct
`(ticker, month)` key, keys in sorted order. -/
def aggRows (rows : List ERow) : List ERow :=
  (sortedKeys rows).map (aggRow rows)

/-- Step 2, `aggregate_to_monthly`: `KeyError` (schema error) if any
accessed column is absent, otherwise group and aggregate. -/
def aggregate_to_monthly (t : Table) : Except PError Table :=
  if requiredCols.all (fun c => t.cols.contains c) then
    .ok ⟨monthlyCols, aggRows t.rows⟩
  else .error .schemaError

/-- Embeds `rolling(window=k).mean()`: at each position the trailing window of
the last `k` values; `min_periods` defaults to the window size, so a
short window yields `NaN` (`none`). -/
def rollingMean (k : Nat) (cs : List ℚ) : List (Option ℚ) :=
  (List.range cs.length).map fun i =>
    let w := (cs.take (i + 1)).drop (i + 1 - k)
    if w.length < k then none else some (w.sum / (k : ℚ))

/-- The tail of `ewm(adjust=False).mean()` after the seed: each output is
`(1 - α) * previous + α * current`. -/
def ewmStep (α : ℚ) (prev : ℚ) : List ℚ → List ℚ
  | [] => []
  | c :: cs =>
    let y := (1 - α) * prev + α * c
    y :: ewmStep α y cs

/-- Embeds `ewm(span, adjust=False).mean()`: seeded with the first value, then
the recursive smoothing step; defined at every index. -/
def ewmMean (α : ℚ) : List ℚ → List ℚ
  | [] => []
  | c :: cs => c :: ewmStep α c cs

/-- The smoothing factor pandas derives from `span`: `α = 2/(span+1)`. -/
def emaAlpha (span : Nat) : ℚ := 2 / (span + 1)

/-- SMA column values for one ticker's close series. -/
def smaSeries (k : Nat) (cs : List ℚ) : List (Option ℚ) :=
  rollingMean k cs

/-- EMA column values for one ticker's close series (always defined, so
every entry is `some`). -/
def emaSeries (span : Nat) (cs : List ℚ) : List (Option ℚ) :=
  (ewmMean (emaAlpha span) cs).map some

/-- First-occurrence deduplication with explicit fuel (the list length),
the semantics of pandas `unique()` and of iterating `groupby` keys in
first-appearance order. -/
def uniqueFirstAux : Nat → List String → List String
  | 0, _ => []
  | _ + 1, [] => []
  | n + 1, x :: xs => x :: uniqueFirstAux n (xs.filter (fun y => y ≠ x))

def uniqueFirst (l : List String) : List String :=
  uniqueFirstAux l.length l

/-- The distinct tickers of a frame, in first-appearance order. -/
def tickersOf (rows : List ERow) : List String :=
  uniqueFirst (rows.map (·.ticker))

/-- Embeds `groupby('ticker')['close'].transform f`: the per-group series `f`,
aligned back to the frame's row positions.  On a frame sorted by
`(ticker, date)` the groups are contiguous, so the aligned column is the
concatenation of the per-ticker series in first-appearance order. -/
def transformCol (rows : List ERow) (f : List ℚ → List (Option ℚ)) :
    List (Option ℚ) :=
  (tickersOf rows).flatMap fun t =>
    f (((rows.filter (fun r => r.ticker = t)).map (·.close)))

/-- In-place column assignment `df[c] = v` at the row level: pair rows
with values positionally and store the value in the named field. -/
def setCol (set : ERow → Option ℚ → ERow) (rows : List ERow)
    (v : List (Option ℚ)) : List ERow :=
  List.zipWith set rows v

def setS10 (r : ERow) (x : Option ℚ) : ERow := { r with SMA_10 := x }
def setS20 (r : ERow) (x : Option ℚ) : ERow := { r with SMA_20 := x }
def setE10 (r : ERow) (x : Option ℚ) : ERow := { r with EMA_10 := x }
def setE20 (r : ERow) (x : Option ℚ) : ERow := { r with EMA_20 := x }

/-- The row part of step 3: sort, then the four column assignments, each
computed by `transform` over the sorted frame's per-ticker close series
(the source binds `group` once, on the sorted frame). -/
def enrichRows (rows : List ERow) : List ERow :=
  let sorted := sortRows rows
  setCol setE20
    (setCol setE10
      (setCol setS20
        (setCol setS10 sorted (transformCol sorted (smaSeries 10)))
        (transformCol sorted (smaSeries 20)))
      (transformCol sorted (emaSeries 10)))
    (transformCol sorted (emaSeries 20))

/-- The four assigned column names, in assignment order. -/
def indicatorCols : List String := ["SMA_10", "SMA_20", "EMA_10", "EMA_20"]

/-- Step 3, `add_technical_indicators`: sorts into a fresh frame and
appends the four indicator columns. -/
def add_technical_indicators (t : Table) : Table :=
  ⟨t.cols ++ indicatorCols, enrichRows t.rows⟩

/-- One output file: its name, its header row (`to_csv` with
`index=False` writes exactly the table's columns, no row-index column),
and its records. -/
structure Artifact where
  name : String
  header : List String
  rows : List ERow
deriving DecidableEq

/-- Step 4, `save_by_ticker`: for each ticker of `df['ticker'].unique()`
(first-appearance order), the rows of that ticker in table order, written
to `result_<TICKER>.csv`. -/
def save_by_ticker (t : Table) : List Artifact :=
  (tickersOf t.rows).map fun s =>
    { name := "result_" ++ s ++ ".csv"
      header := t.cols
      rows := t.rows.filter (fun r => r.ticker = s) }

/-- The `__main__` driver: the four stages in sequence inside a single
`try`, so the first error anywhere aborts the run with no artifacts. -/
def runPipeline (t : RawTable) : Except PError (List Artifact) := do
  let n ← load_and_prepare_data t
  let m ← aggregate_to_monthly n
  pure (save_by_ticker (add_technical_indicators m))

/-! ### Heap model of step 3

`add_technical_indicators` receives a reference to the caller's monthly
DataFrame.  `df = df.sort_values(...)` allocates a fresh frame and
rebinds the local name; the four `df[c] = ...` assignments then mutate
only that fresh frame.  The heap maps references (allocation order) to
tables. -/

structure PDState where
  heap : Nat → Table
  next : Nat

/-- Allocate a fresh frame. -/
def alloc (s : PDState) (t : Table) : PDState × Nat :=
  (⟨fun i => if i = s.next then t else s.heap i, s.next + 1⟩, s.next)

/-- Overwrite the frame a reference points to. -/
def writeAt (s : PDState) (r : Nat) (t : Table) : PDState :=
  ⟨fun i => if i = r then t else s.heap i, s.next⟩

/-- One in-place column assignment `df[c] = v`: appends the column name
and stores the values. -/
def assignIndicator (cur : Table) (c : String)
    (set : ERow → Option ℚ → ERow) (v : List (Option ℚ)) : Table :=
  ⟨cur.cols ++ [c], setCol set cur.rows v⟩

/-- Step 3 as it acts on the heap: read the argument frame, allocate the
sorted copy, then perform the four in-place assignments on the copy,
returning the reference to it. -/
def add_technical_indicators_heap (s : PDState) (r : Nat) :
    PDState × Nat :=
  let t := s.heap r
  let sorted := sortRows t.rows
  let (s₁, a) := alloc s ⟨t.cols, sorted⟩
  let s₂ := writeAt s₁ a
    (assignIndicator (s₁.heap a) "SMA_10" setS10 (transformCol sorted (smaSeries 10)))
  let s₃ := writeAt s₂ a
    (assignIndicator (s₂.heap a) "SMA_20" setS20 (transformCol sorted (smaSeries 20)))
  let s₄ := writeAt s₃ a
    (assignIndicator (s₃.heap a) "EMA_10" setE10 (transformCol sorted (emaSeries 10)))
  let s₅ := writeAt s₄ a
    (assignIndicator (s₄.heap a) "EMA_20" setE20 (transformCol sorted (emaSeries 20)))
  (s₅, a)

/-! ### Sorting: permutation, order, stability -/

/-- The full sort key of a normalized row. -/
def rkey (r : ERow) : String × Date := (r.ticker, r.date)

theorem sortRows_perm (l : List ERow) : sortRows l ~ l :=
  List.perm_insertionSort rowle l

theorem sortRows_pairwise (l : List ERow) : (sortRows l).Pairwise rowle :=
  List.sorted_insertionSort rowle l

theorem rowle_of_rkey_eq {a b : ERow} (h : rkey a = rkey b) : rowle a b := by
  have ht : a.ticker = b.ticker := congrArg Prod.fst h
  have hd : a.date = b.date := congrArg Prod.snd h
  exact Or.inr ⟨ht, by rw [hd]; exact dateLe_refl _⟩

theorem rkey_eq_of_rowle_rowle {a b : ERow} (h₁ : rowle a b)
    (h₂ : rowle b a) : rkey a = rkey b := by
  rcases h₁ with h₁ | ⟨e₁, d₁⟩ <;> rcases h₂ with h₂ | ⟨e₂, d₂⟩
  · exact (strLt_asymm h₁ h₂).elim
  · exact ((e₂ ▸ strLt_irrefl a.ticker : ¬ strLt a.ticker b.ticker) h₁).elim
  · exact ((e₁ ▸ strLt_irrefl a.ticker : ¬ strLt b.ticker a.ticker) h₂).elim
  · unfold rkey
    rw [e₁, dateLe_antisymm d₁ d₂]

/-- Stability of the loader's sort: the rows holding any fixed
(ticker, date) key come out in exactly their input order. -/
theorem sortRows_filter_rkey (l : List ERow) (k : String × Date) :
    (sortRows l).filter (fun r => rkey r = k) =
      l.filter (fun r => rkey r = k) := by
  have hsub : l.filter (fun r => rkey r = k) <+ sortRows l := by
    apply List.sublist_insertionSort
    · apply List.pairwise_of_forall_mem_list
      intro a ha b hb
      have ha' := of_decide_eq_true (List.mem_filter.mp ha).2
      have hb' := of_decide_eq_true (List.mem_filter.mp hb).2
      exact rowle_of_rkey_eq (ha'.trans hb'.symm)
    · exact List.filter_sublist l
  have h0 : (l.filter (fun r => rkey r = k)).filter (fun r => rkey r = k) =
      l.filter (fun r => rkey r = k) :=
    List.filter_eq_self.mpr (fun a ha => (List.mem_filter.mp ha).2)
  have hsub2 := hsub.filter (fun r => decide (rkey r = k))
  rw [h0] at hsub2
  have hlen : ((sortRows l).filter (fun r => rkey r = k)).length =
      (l.filter (fun r => rkey r = k)).length :=
    ((sortRows_perm l).filter _).length_eq
  exact (hsub2.eq_of_length hlen.symm).symm

/-- A list sorted by `(ticker, date)` is determined by its multiset of
rows together with the relative order of equal-key rows: stable sorts are
unique. -/
theorem stable_sort_unique : ∀ {l₁ l₂ : List ERow}, l₁ ~ l₂ →
    l₁.Pairwise rowle → l₂.Pairwise rowle →
    (∀ k, l₁.filter (fun r => rkey r = k) = l₂.filter (fun r => rkey r = k)) →
    l₁ = l₂ := by
  intro l₁
  induction l₁ with
  | nil =>
    intro l₂ hp _ _ _
    exact (hp.symm.eq_nil).symm ▸ rfl
  | cons r l₁' ih =>
    intro l₂ hp hs₁ hs₂ hf
    cases l₂ with
    | nil => exact absurd hp (by simp)
    | cons s l₂' =>
      have hhead := hf (rkey r)
      rw [List.filter_cons, List.filter_cons] at hhead
      simp only [decide_True, if_pos] at hhead
      have hsr : s = r := by
        by_cases hks : rkey s = rkey r
        · rw [if_pos (by simpa using hks)] at hhead
          exact (List.cons.injEq .. ▸ hhead).1.symm
        · exfalso
          have hrmem : r ∈ s :: l₂' := hp.subset (List.mem_cons_self r l₁')
          have hsmem : s ∈ r :: l₁' := hp.symm.subset (List.mem_cons_self s l₂')
          rcases List.mem_cons.mp hrmem with he | hrmem'
          · exact hks (he ▸ rfl)
          rcases List.mem_cons.mp hsmem with he | hsmem'
          · exact hks (he ▸ rfl)
          have h₁ : rowle r s := (List.pairwise_cons.mp hs₁).1 s hsmem'
          have h₂ : rowle s r := (List.pairwise_cons.mp hs₂).1 r hrmem'
          exact hks (rkey_eq_of_rowle_rowle h₂ h₁)
      subst hsr
      have htail : l₁' = l₂' := by
        refine ih hp.cons_inv (List.pairwise_cons.mp hs₁).2
          (List.pairwise_cons.mp hs₂).2 (fun k => ?_)
        have hk := hf k
        rw [List.filter_cons, List.filter_cons] at hk
        by_cases hks : rkey s = k
        · rw [if_pos (by simpa using hks), if_pos (by simpa using hks)] at hk
          exact (List.cons.injEq .. ▸ hk).2
        · rwa [if_neg (by simpa using hks), if_neg (by simpa using hks)] at hk
      rw [htail]

/-- Filtering one ticker out of the sorted table is the same as sorting
that ticker's rows: the sort never interleaves tickers. -/
theorem sortRows_filter_ticker (l : List ERow) (t : String) :
    (sortRows l).filter (fun r => r.ticker = t) =
      sortRows (l.filter (fun r => r.ticker = t)) := by
  apply stable_sort_unique
  · exact ((sortRows_perm l).filter _).trans (sortRows_perm _).symm
  · exact (sortRows_pairwise l).filter _
  · exact sortRows_pairwise _
  · intro k
    rw [List.filter_filter, sortRows_filter_rkey, List.filter_filter]
    by_cases hk : k.1 = t
    · have hcong : ∀ l' : List ERow,
          l'.filter (fun a => decide (rkey a = k) && decide (a.ticker = t)) =
            l'.filter (fun a => rkey a = k) := by
        intro l'
        apply List.filter_congr
        intro a _
        by_cases ha : rkey a = k
        · have : a.ticker = t := by
            rw [← hk, ← ha]; rfl
          simp [ha, this]
        · simp [ha]
      rw [hcong, hcong, sortRows_filter_rkey]
    · have hcong : ∀ l' : List ERow,
          l'.filter (fun a => decide (rkey a = k) && decide (a.ticker = t)) =
            l'.filter (fun _ => false) := by
        intro l'
        apply List.filter_congr
        intro a _
        by_cases ha : rkey a = k
        · have : a.ticker ≠ t := by
            rw [← ha] at hk; exact hk
          simp [ha, this]
        · simp [ha]
      rw [hcong, hcong, List.filter_false, List.filter_false]

/-- C2: the Loader/Normalizer returns exactly the parsed input rows,
sorted ascending by (ticker, date), and the sort is stable: rows with
equal keys keep their original relative order. -/
theorem loader_sorts_stably (t : RawTable) (out : Table)
    (h : load_and_prepare_data t = .ok out) :
    ∃ ns, parseRows t.rows = some ns ∧
      out.rows.Perm ns ∧
      out.rows.Pairwise rowle ∧
      ∀ k : String × Date,
        out.rows.filter (fun r => rkey r = k) = ns.filter (fun r => rkey r = k) := by
  unfold load_and_prepare_data at h
  split at h
  · split at h
    · cases h
    · rename_i ns hns
      split at h
      · cases h
        exact ⟨ns, hns, sortRows_perm ns, sortRows_pairwise ns,
          fun k => sortRows_filter_rkey ns k⟩
      · cases h
  · cases h

/-! ### First-occurrence deduplication (`unique()`) -/

theorem uniqueFirstAux_fuel : ∀ (n : Nat) (l : List String),
    l.length ≤ n → uniqueFirstAux n l = uniqueFirstAux l.length l
  | 0, l, h => by
    have : l = [] := List.eq_nil_of_length_eq_zero (Nat.le_zero.mp h)
    subst this; rfl
  | n + 1, [], _ => rfl
  | n + 1, x :: xs, h => by
    simp only [uniqueFirstAux, List.length_cons]
    have hle : (xs.filter (fun y => y ≠ x)).length ≤ n :=
      le_trans (List.length_filter_le _ _) (Nat.succ_le_succ_iff.mp h)
    rw [uniqueFirstAux_fuel n _ hle,
      uniqueFirstAux_fuel xs.length _ (List.length_filter_le _ _)]

theorem uniqueFirst_nil : uniqueFirst [] = [] := rfl

theorem uniqueFirst_cons (x : String) (xs : List String) :
    uniqueFirst (x :: xs) = x :: uniqueFirst (xs.filter (fun y => y ≠ x)) := by
  unfold uniqueFirst
  simp only [List.length_cons, uniqueFirstAux]
  rw [uniqueFirstAux_fuel xs.length _ (List.length_filter_le _ _)]

theorem mem_uniqueFirst : ∀ (l : List String) (y : String),
    y ∈ uniqueFirst l ↔ y ∈ l
  | [], y => by simp [uniqueFirst_nil]
  | x :: xs, y => by
    rw [uniqueFirst_cons]
    by_cases hyx : y = x
    · subst hyx; simp
    · simp only [List.mem_cons, hyx, false_or]
      rw [mem_uniqueFirst (xs.filter (fun y => y ≠ x)) y]
      simp [List.mem_filter, hyx]
termination_by l => l.length
decreasing_by
  exact Nat.lt_succ_of_le (List.length_filter_le _ _)

theorem nodup_uniqueFirst : ∀ (l : List String), (uniqueFirst l).Nodup
  | [] => by simp [uniqueFirst_nil]
  | x :: xs => by
    rw [uniqueFirst_cons]
    refine List.nodup_cons.mpr ⟨?_, nodup_uniqueFirst _⟩
    intro hx
    have := (mem_uniqueFirst _ _).mp hx
    have := (List.mem_filter.mp this).2
    simp at this
termination_by l => l.length
decreasing_by
  exact Nat.lt_succ_of_le (List.length_filter_le _ _)

theorem length_filter_add_length_filter_not (l : List ERow) (p : ERow → Bool) :
    (l.filter p).length + (l.filter (fun r => ¬ p r)).length = l.length := by
  rw [← List.countP_eq_length_filter, ← List.countP_eq_length_filter]
  exact (List.length_eq_countP_add_countP _ _).symm

/-- Row-count conservation of grouping by ticker: the per-ticker row
counts over the distinct tickers sum to the total row count. -/
theorem sum_len_filter_tickersOf : ∀ (rows : List ERow),
    ((tickersOf rows).map
      (fun t => (rows.filter (fun r => r.ticker = t)).length)).sum = rows.length
  | [] => by simp [tickersOf, uniqueFirst_nil]
  | r :: rest => by
    have hrec := sum_len_filter_tickersOf (rest.filter (fun x => x.ticker ≠ r.ticker))
    have htk : tickersOf (r :: rest) =
        r.ticker :: tickersOf (rest.filter (fun x => x.ticker ≠ r.ticker)) := by
      unfold tickersOf
      rw [List.map_cons, uniqueFirst_cons]
      congr 1
      congr 1
      rw [List.filter_map]
      rfl
    rw [htk, List.map_cons, List.sum_cons]
    have hmain : ∀ u ∈ tickersOf (rest.filter (fun x => x.ticker ≠ r.ticker)),
        ((r :: rest).filter (fun x => x.ticker = u)).length =
          ((rest.filter (fun x => x.ticker ≠ r.ticker)).filter
            (fun x => x.ticker = u)).length := by
      intro u hu
      have hu' : u ≠ r.ticker := by
        have hmem := (mem_uniqueFirst _ _).mp hu
        rcases List.mem_map.mp hmem with ⟨x, hx, hxu⟩
        have hneq := (List.mem_filter.mp hx).2
        rw [← hxu]
        simpa using hneq
      have hru : ¬ (r.ticker = u) := fun h => hu' h.symm
      rw [List.filter_cons]
      rw [if_neg (by simpa using hru)]
      rw [List.filter_filter]
      congr 1
      apply List.filter_congr
      intro a _
      by_cases ha : a.ticker = u
      · simp [ha, hu']
      · simp [ha]
    rw [List.map_congr_left hmain, hrec]
    rw [List.filter_cons, if_pos (by simp)]
    simp only [List.length_cons]
    have := length_filter_add_length_filter_not rest (fun x => x.ticker = r.ticker)
    have hco : rest.filter (fun x => x.ticker ≠ r.ticker) =
        rest.filter (fun x => ¬ (decide (x.ticker = r.ticker) : Bool)) := by
      apply List.filter_congr
      intro a _
      by_cases ha : a.ticker = r.ticker <;> simp [ha]
    rw [hco]
    omega
termination_by rows => rows.length
decreasing_by
  exact Nat.lt_succ_of_le (List.length_filter_le _ _)

/-- In a sorted list whose tickers are all `≥ t`, the rows of ticker `t`
form a prefix. -/
theorem filter_append_filter_not_of_sorted :
    ∀ (l : List ERow) (t : String), l.Pairwise rowle →
    (∀ x ∈ l, ¬ strLt x.ticker t) →
    l.filter (fun r => r.ticker = t) ++ l.filter (fun r => r.ticker ≠ t) = l
  | [], _, _, _ => rfl
  | x :: l', t, hs, hlo => by
    have hl' := (List.pairwise_cons.mp hs).2
    have hxlo := (List.pairwise_cons.mp hs).1
    by_cases hx : x.ticker = t
    · rw [List.filter_cons, if_pos (by simpa using hx),
        List.filter_cons, if_neg (by simpa using hx)]
      rw [List.cons_append,
        filter_append_filter_not_of_sorted l' t hl'
          (fun y hy => hlo y (List.mem_cons_of_mem x hy))]
    · have hgt : strLt t x.ticker := by
        rcases strLt_trichotomy x.ticker t with h | h | h
        · exact absurd h (hlo x (List.mem_cons_self x l'))
        · exact absurd h hx
        · exact h
      have hnone : ∀ y ∈ l', y.ticker ≠ t := by
        intro y hy hyt
        rcases hxlo y hy with h | ⟨e, _⟩
        · exact strLt_asymm (hyt ▸ h) hgt
        · exact hx (e.symm ▸ hyt)
      rw [List.filter_cons, if_neg (by simpa using hx),
        List.filter_cons, if_pos (by simpa using hx)]
      rw [List.filter_eq_nil_iff.mpr
        (fun y hy => by simpa using hnone y hy)]
      rw [List.nil_append,
        List.filter_eq_self.mpr (fun y hy => by simpa using hnone y hy)]

/-- On a ticker-sorted list the ticker groups are contiguous: the list is
the concatenation of its per-ticker filters in first-appearance order
(exactly how `groupby('ticker')` aligns `transform` results). -/
theorem flatMap_filter_tickersOf : ∀ (rows : List ERow),
    rows.Pairwise rowle →
    (tickersOf rows).flatMap (fun t => rows.filter (fun r => r.ticker = t)) = rows
  | [], _ => by simp [tickersOf, uniqueFirst_nil]
  | r :: rest, hs => by
    have hrest := (List.pairwise_cons.mp hs).2
    have hlo := (List.pairwise_cons.mp hs).1
    have htk : tickersOf (r :: rest) =
        r.ticker :: tickersOf (rest.filter (fun x => x.ticker ≠ r.ticker)) := by
      unfold tickersOf
      rw [List.map_cons, uniqueFirst_cons]
      congr 1
      congr 1
      rw [List.filter_map]
      rfl
    rw [htk, List.flatMap_cons]
    have hmain : ∀ u ∈ tickersOf (rest.filter (fun x => x.ticker ≠ r.ticker)),
        (r :: rest).filter (fun x => x.ticker = u) =
          (rest.filter (fun x => x.ticker ≠ r.ticker)).filter
            (fun x => x.ticker = u) := by
      intro u hu
      have hu' : u ≠ r.ticker := by
        have hmem := (mem_uniqueFirst _ _).mp hu
        rcases List.mem_map.mp hmem with ⟨x, hx, hxu⟩
        have hneq := (List.mem_filter.mp hx).2
        rw [← hxu]
        simpa using hneq
      have hru : ¬ (r.ticker = u) := fun h => hu' h.symm
      rw [List.filter_cons]
      rw [if_neg (by simpa using hru)]
      rw [List.filter_filter]
      apply List.filter_congr
      intro a _
      by_cases ha : a.ticker = u
      · simp [ha, hu']
      · simp [ha]
    have hflat : (tickersOf (rest.filter (fun x => x.ticker ≠ r.ticker))).flatMap
          (fun u => (r :: rest).filter (fun x => x.ticker = u)) =
        rest.filter (fun x => x.ticker ≠ r.ticker) := by
      unfold List.flatMap
      rw [List.map_congr_left hmain]
      have hIH := flatMap_filter_tickersOf
        (rest.filter (fun x => x.ticker ≠ r.ticker))
        (hrest.sublist (List.filter_sublist rest))
      unfold List.flatMap at hIH
      exact hIH
    rw [hflat]
    rw [List.filter_cons, if_pos (by simp)]
    rw [List.cons_append]
    congr 1
    apply filter_append_filter_not_of_sorted rest r.ticker hrest
    intro x hx hlt
    rcases hlo x hx with h | ⟨e, _⟩
    · exact strLt_asymm h hlt
    · exact (e ▸ strLt_irrefl x.ticker : ¬ strLt x.ticker r.ticker) hlt
termination_by rows => rows.length
decreasing_by
  exact Nat.lt_succ_of_le (List.length_filter_le _ _)

/-! ### Indicator stage: structure lemmas -/

theorem smaSeries_length (k : Nat) (cs : List ℚ) :
    (smaSeries k cs).length = cs.length := by
  simp [smaSeries, rollingMean]

theorem ewmStep_length (α : ℚ) : ∀ (prev : ℚ) (cs : List ℚ),
    (ewmStep α prev cs).length = cs.length
  | _, [] => rfl
  | prev, c :: cs => by
    simp [ewmStep, ewmStep_length α _ cs]

theorem ewmMean_length (α : ℚ) : ∀ cs : List ℚ,
    (ewmMean α cs).length = cs.length
  | [] => rfl
  | c :: cs => by simp [ewmMean, ewmStep_length]

theorem emaSeries_length (span : Nat) (cs : List ℚ) :
    (emaSeries span cs).length = cs.length := by
  simp [emaSeries, ewmMean_length]

theorem setCol_length (set : ERow → Option ℚ → ERow) (g : List ERow)
    (v : List (Option ℚ)) (h : v.length = g.length) :
    (setCol set g v).length = g.length := by
  simp [setCol, h]

/-- The four column assignments, as one function of the row block and the
four value columns. -/
def applyCols (g : List ERow) (v1 v2 v3 v4 : List (Option ℚ)) : List ERow :=
  setCol setE20 (setCol setE10 (setCol setS20 (setCol setS10 g v1) v2) v3) v4

/-- One ticker block of the enriched table: the block's rows with the
four indicator columns computed from the block's own close series. -/
def enrichBlock (g : List ERow) : List ERow :=
  applyCols g (smaSeries 10 (g.map (·.close))) (smaSeries 20 (g.map (·.close)))
    (emaSeries 10 (g.map (·.close))) (emaSeries 20 (g.map (·.close)))

theorem applyCols_spec : ∀ (g : List ERow) (v1 v2 v3 v4 : List (Option ℚ)),
    v1.length = g.length → v2.length = g.length →
    v3.length = g.length → v4.length = g.length →
    (applyCols g v1 v2 v3 v4).map (·.SMA_10) = v1 ∧
    (applyCols g v1 v2 v3 v4).map (·.SMA_20) = v2 ∧
    (applyCols g v1 v2 v3 v4).map (·.EMA_10) = v3 ∧
    (applyCols g v1 v2 v3 v4).map (·.EMA_20) = v4 ∧
    (applyCols g v1 v2 v3 v4).map (·.ticker) = g.map (·.ticker) ∧
    (applyCols g v1 v2 v3 v4).length = g.length
  | [], v1, v2, v3, v4, h1, h2, h3, h4 => by
    rw [List.eq_nil_of_length_eq_zero h1, List.eq_nil_of_length_eq_zero h2,
      List.eq_nil_of_length_eq_zero h3, List.eq_nil_of_length_eq_zero h4]
    simp [applyCols, setCol]
  | r :: g, v1, v2, v3, v4, h1, h2, h3, h4 => by
    cases v1 with
    | nil => simp at h1
    | cons a v1 =>
      cases v2 with
      | nil => simp at h2
      | cons b v2 =>
        cases v3 with
        | nil => simp at h3
        | cons c v3 =>
          cases v4 with
          | nil => simp at h4
          | cons d v4 =>
            have ih := applyCols_spec g v1 v2 v3 v4 (by simpa using h1)
              (by simpa using h2) (by simpa using h3) (by simpa using h4)
            simp only [applyCols, setCol, List.zipWith_cons_cons, List.map_cons,
              List.length_cons] at ih ⊢
            exact ⟨by rw [ih.1]; rfl, by rw [ih.2.1]; rfl, by rw [ih.2.2.1]; rfl,
              by rw [ih.2.2.2.1]; rfl, by rw [ih.2.2.2.2.1]; rfl,
              by rw [ih.2.2.2.2.2]⟩

theorem enrichBlock_length (g : List ERow) :
    (enrichBlock g).length = g.length :=
  (applyCols_spec g _ _ _ _ (by simp [smaSeries_length])
    (by simp [smaSeries_length]) (by simp [emaSeries_length])
    (by simp [emaSeries_length])).2.2.2.2.2

theorem enrichBlock_map_ticker (g : List ERow) :
    (enrichBlock g).map (·.ticker) = g.map (·.ticker) :=
  (applyCols_spec g _ _ _ _ (by simp [smaSeries_length])
    (by simp [smaSeries_length]) (by simp [emaSeries_length])
    (by simp [emaSeries_length])).2.2.2.2.1

theorem enrichBlock_map_SMA_10 (g : List ERow) :
    (enrichBlock g).map (·.SMA_10) = smaSeries 10 (g.map (·.close)) :=
  (applyCols_spec g _ _ _ _ (by simp [smaSeries_length])
    (by simp [smaSeries_length]) (by simp [emaSeries_length])
    (by simp [emaSeries_length])).1

theorem enrichBlock_map_SMA_20 (g : List ERow) :
    (enrichBlock g).map (·.SMA_20) = smaSeries 20 (g.map (·.close)) :=
  (applyCols_spec g _ _ _ _ (by simp [smaSeries_length])
    (by simp [smaSeries_length]) (by simp [emaSeries_length])
    (by simp [emaSeries_length])).2.1

theorem enrichBlock_map_EMA_10 (g : List ERow) :
    (enrichBlock g).map (·.EMA_10) = emaSeries 10 (g.map (·.close)) :=
  (applyCols_spec g _ _ _ _ (by simp [smaSeries_length])
    (by simp [smaSeries_length]) (by simp [emaSeries_length])
    (by simp [emaSeries_length])).2.2.1

theorem enrichBlock_map_EMA_20 (g : List ERow) :
    (enrichBlock g).map (·.EMA_20) = emaSeries 20 (g.map (·.close)) :=
  (applyCols_spec g _ _ _ _ (by simp [smaSeries_length])
    (by simp [smaSeries_length]) (by simp [emaSeries_length])
    (by simp [emaSeries_length])).2.2.2.1

theorem setCol_flatMap (set : ERow → Option ℚ → ERow) :
    ∀ (ts : List String) (blocks : String → List ERow)
      (vs : String → List (Option ℚ)),
    (∀ t ∈ ts, (vs t).length = (blocks t).length) →
    setCol set (ts.flatMap blocks) (ts.flatMap vs) =
      ts.flatMap (fun t => setCol set (blocks t) (vs t))
  | [], _, _, _ => rfl
  | t :: ts, blocks, vs, h => by
    rw [List.flatMap_cons, List.flatMap_cons, List.flatMap_cons]
    unfold setCol
    rw [List.zipWith_append _ _ _ _ _ (h t (List.mem_cons_self ..)).symm]
    congr 1
    exact setCol_flatMap set ts blocks vs
      (fun u hu => h u (List.mem_cons_of_mem _ hu))

/-- The setCol chain of `enrichRows`, on an arbitrary sorted frame:
each ticker block receives the series of its own closes. -/
theorem enrich_chain (S : List ERow) (hs : S.Pairwise rowle) :
    setCol setE20
      (setCol setE10
        (setCol setS20
          (setCol setS10 S (transformCol S (smaSeries 10)))
          (transformCol S (smaSeries 20)))
        (transformCol S (emaSeries 10)))
      (transformCol S (emaSeries 20)) =
    (tickersOf S).flatMap
      (fun t => enrichBlock (S.filter (fun r => r.ticker = t))) := by
  have hA := flatMap_filter_tickersOf S hs
  have hlen : ∀ (k : Nat) (t : String),
      (smaSeries k ((S.filter (fun r => r.ticker = t)).map (·.close))).length =
        (S.filter (fun r => r.ticker = t)).length := by
    intro k t; simp [smaSeries_length]
  have hlen' : ∀ (k : Nat) (t : String),
      (emaSeries k ((S.filter (fun r => r.ticker = t)).map (·.close))).length =
        (S.filter (fun r => r.ticker = t)).length := by
    intro k t; simp [emaSeries_length]
  have hT : ∀ f : List ℚ → List (Option ℚ), transformCol S f =
      (tickersOf S).flatMap
        (fun t => f ((S.filter (fun r => r.ticker = t)).map (·.close))) :=
    fun f => rfl
  have h1 := setCol_flatMap setS10 (tickersOf S)
    (fun t => S.filter (fun r => r.ticker = t))
    (fun t => smaSeries 10 ((S.filter (fun r => r.ticker = t)).map (·.close)))
    (fun t _ => hlen 10 t)
  rw [hA] at h1
  have h2 := setCol_flatMap setS20 (tickersOf S)
    (fun t => setCol setS10 (S.filter (fun r => r.ticker = t))
      (smaSeries 10 ((S.filter (fun r => r.ticker = t)).map (·.close))))
    (fun t => smaSeries 20 ((S.filter (fun r => r.ticker = t)).map (·.close)))
    (fun t _ => by rw [hlen 20 t, setCol_length _ _ _ (hlen 10 t)])
  have h3 := setCol_flatMap setE10 (tickersOf S)
    (fun t => setCol setS20
      (setCol setS10 (S.filter (fun r => r.ticker = t))
        (smaSeries 10 ((S.filter (fun r => r.ticker = t)).map (·.close))))
      (smaSeries 20 ((S.filter (fun r => r.ticker = t)).map (·.close))))
    (fun t => emaSeries 10 ((S.filter (fun r => r.ticker = t)).map (·.close)))
    (fun t _ => by
      rw [hlen' 10 t,
        setCol_length _ _ _ (by rw [hlen 20 t, setCol_length _ _ _ (hlen 10 t)]),
        setCol_length _ _ _ (hlen 10 t)])
  have h4 := setCol_flatMap setE20 (tickersOf S)
    (fun t => setCol setE10
      (setCol setS20
        (setCol setS10 (S.filter (fun r => r.ticker = t))
          (smaSeries 10 ((S.filter (fun r => r.ticker = t)).map (·.close))))
        (smaSeries 20 ((S.filter (fun r => r.ticker = t)).map (·.close))))
      (emaSeries 10 ((S.filter (fun r => r.ticker = t)).map (·.close))))
    (fun t => emaSeries 20 ((S.filter (fun r => r.ticker = t)).map (·.close)))
    (fun t _ => by
      rw [hlen' 20 t,
        setCol_length _ _ _ (by
          rw [hlen' 10 t,
            setCol_length _ _ _ (by rw [hlen 20 t, setCol_length _ _ _ (hlen 10 t)]),
            setCol_length _ _ _ (hlen 10 t)]),
        setCol_length _ _ _ (by rw [hlen 20 t, setCol_length _ _ _ (hlen 10 t)]),
        setCol_length _ _ _ (hlen 10 t)])
  rw [hT (smaSeries 10), h1, hT (smaSeries 20), h2, hT (emaSeries 10), h3,
    hT (emaSeries 20), h4]
  rfl

/-- The enriched rows decompose into per-ticker blocks: each ticker's
rows carry the indicator series of that ticker's own close series. -/
theorem enrichRows_eq_flatMap (rows : List ERow) :
    enrichRows rows = (tickersOf (sortRows rows)).flatMap
      (fun t => enrichBlock ((sortRows rows).filter (fun r => r.ticker = t))) :=
  enrich_chain (sortRows rows) (sortRows_pairwise rows)

theorem enrichBlock_ticker_mem {g : List ERow} {u : String}
    (hg : ∀ r ∈ g, r.ticker = u) :
    ∀ r ∈ enrichBlock g, r.ticker = u := by
  intro r hr
  have hmem : r.ticker ∈ (enrichBlock g).map (·.ticker) :=
    List.mem_map_of_mem _ hr
  rw [enrichBlock_map_ticker] at hmem
  rcases List.mem_map.mp hmem with ⟨x, hx, hxr⟩
  rw [← hxr, hg x hx]

theorem flatMap_if_eq (F : String → List ERow) :
    ∀ (ts : List String) (t : String), ts.Nodup →
    ts.flatMap (fun u => if u = t then F u else []) =
      if t ∈ ts then F t else []
  | [], t, _ => by simp
  | u :: ts, t, h => by
    rw [List.flatMap_cons,
      flatMap_if_eq F ts t (List.nodup_cons.mp h).2]
    by_cases hut : u = t
    · subst hut
      rw [if_pos rfl, if_neg (List.nodup_cons.mp h).1, if_pos (by simp)]
      simp
    · rw [if_neg hut, List.nil_append]
      by_cases hts : t ∈ ts
      · rw [if_pos hts, if_pos (List.mem_cons_of_mem _ hts)]
      · rw [if_neg hts, if_neg (by
          simp only [List.mem_cons, not_or]
          exact ⟨fun h => hut h.symm, hts⟩)]

/-- Each ticker's enriched rows are exactly the enrichment of that
ticker's sorted block. -/
theorem enriched_filter_ticker (rows : List ERow) (t : String) :
    (enrichRows rows).filter (fun r => r.ticker = t) =
      enrichBlock ((sortRows rows).filter (fun r => r.ticker = t)) := by
  rw [enrichRows_eq_flatMap, List.filter_flatMap]
  have hcase : ∀ u ∈ tickersOf (sortRows rows),
      (enrichBlock ((sortRows rows).filter (fun r => r.ticker = u))).filter
          (fun r => r.ticker = t) =
        if u = t then enrichBlock ((sortRows rows).filter (fun r => r.ticker = u))
        else [] := by
    intro u _
    have hall := enrichBlock_ticker_mem
      (g := (sortRows rows).filter (fun r => r.ticker = u)) (u := u)
      (fun r hr => of_decide_eq_true (List.mem_filter.mp hr).2)
    by_cases hut : u = t
    · subst hut
      rw [if_pos rfl]
      exact List.filter_eq_self.mpr (fun r hr => by simpa using hall r hr)
    · rw [if_neg hut]
      exact List.filter_eq_nil_iff.mpr
        (fun r hr => by
          simp only [decide_eq_true_eq]
          exact fun hc => hut ((hall r hr).symm.trans hc))
  unfold List.flatMap
  rw [List.map_congr_left hcase]
  have hfold : (List.map (fun u =>
      if u = t then enrichBlock ((sortRows rows).filter (fun r => r.ticker = u))
      else []) (tickersOf (sortRows rows))).flatten =
      (tickersOf (sortRows rows)).flatMap (fun u =>
        if u = t then enrichBlock ((sortRows rows).filter (fun r => r.ticker = u))
        else []) := rfl
  rw [hfold]
  have hif : (tickersOf (sortRows rows)).flatMap (fun u =>
      if u = t then enrichBlock ((sortRows rows).filter (fun r => r.ticker = u))
      else []) =
      if t ∈ tickersOf (sortRows rows) then
        enrichBlock ((sortRows rows).filter (fun r => r.ticker = t))
      else [] := by
    exact flatMap_if_eq
      (fun u => enrichBlock ((sortRows rows).filter (fun r => r.ticker = u)))
      (tickersOf (sortRows rows)) t (nodup_uniqueFirst _)
  rw [hif]
  by_cases ht : t ∈ tickersOf (sortRows rows)
  · rw [if_pos ht]
  · rw [if_neg ht]
    have hnil : (sortRows rows).filter (fun r => r.ticker = t) = [] := by
      apply List.filter_eq_nil_iff.mpr
      intro r hr
      simp only [decide_eq_true_eq]
      intro hc
      apply ht
      unfold tickersOf
      rw [mem_uniqueFirst]
      exact List.mem_map.mpr ⟨r, hr, hc⟩
    rw [hnil]
    rfl

/-! ### Indicator value lemmas -/

theorem rollingMean_getD (k : Nat) (cs : List ℚ) (i : Nat) (h : i < cs.length) :
    (rollingMean k cs).getD i none =
      if i + 1 < k then none
      else some ((((cs.take (i + 1)).drop (i + 1 - k)).sum) / (k : ℚ)) := by
  unfold rollingMean
  rw [List.getD_eq_getElem?_getD, List.getElem?_map, List.getElem?_range h]
  simp only [Option.map_some', Option.getD_some]
  have hw : (((cs.take (i + 1)).drop (i + 1 - k))).length = min (i + 1) k := by
    rw [List.length_drop, List.length_take]
    omega
  by_cases hik : i + 1 < k
  · rw [if_pos (by omega : (((cs.take (i + 1)).drop (i + 1 - k))).length < k),
      if_pos hik]
  · rw [if_neg (by omega : ¬ (((cs.take (i + 1)).drop (i + 1 - k))).length < k),
      if_neg hik]

theorem window_length (k : Nat) (cs : List ℚ) (i : Nat) (h : i < cs.length)
    (hk : k ≤ i + 1) :
    (((cs.take (i + 1)).drop (i + 1 - k))).length = k := by
  rw [List.length_drop, List.length_take]
  omega

theorem ewmStep_getD (α : ℚ) : ∀ (cs : List ℚ) (prev : ℚ) (i : Nat),
    i < cs.length →
    (prev :: ewmStep α prev cs).getD (i + 1) 0 =
      (1 - α) * ((prev :: ewmStep α prev cs).getD i 0) + α * cs.getD i 0
  | [], _, _, h => absurd h (by simp)
  | c :: cs, prev, 0, _ => by
    simp [ewmStep, List.getD_cons_succ, List.getD_cons_zero]
  | c :: cs, prev, i + 1, h => by
    have ih := ewmStep_getD α cs ((1 - α) * prev + α * c) i (by simpa using h)
    simp only [ewmStep, List.getD_cons_succ] at ih ⊢
    exact ih

theorem ewmMean_getD_zero (α : ℚ) (cs : List ℚ) (h : 0 < cs.length) :
    (ewmMean α cs).getD 0 0 = cs.getD 0 0 := by
  cases cs with
  | nil => simp at h
  | cons c cs' => simp [ewmMean]

theorem ewmMean_getD_succ (α : ℚ) (cs : List ℚ) (i : Nat)
    (h : i + 1 < cs.length) :
    (ewmMean α cs).getD (i + 1) 0 =
      α * cs.getD (i + 1) 0 + (1 - α) * ((ewmMean α cs).getD i 0) := by
  cases cs with
  | nil => simp at h
  | cons c cs' =>
    have hstep := ewmStep_getD α cs' c i (by simpa using h)
    rw [show ewmMean α (c :: cs') = c :: ewmStep α c cs' from rfl]
    rw [hstep, List.getD_cons_succ]
    ring

/-- C5: per ticker, the EMA columns are exactly the `adjust=False`
exponential smoothing of that ticker's chronologically ordered closes:
seeded with the first close, recurring by
`EMA(i) = α·c_i + (1−α)·EMA(i−1)` with `α = 2/(k+1)`, and defined
(non-null) at every index. -/
theorem ema_recursion (tbl : Table) (t : String) :
    ((add_technical_indicators tbl).rows.filter (fun r => r.ticker = t)).map (·.EMA_10) =
      emaSeries 10 (((sortRows tbl.rows).filter (fun r => r.ticker = t)).map (·.close)) ∧
    ((add_technical_indicators tbl).rows.filter (fun r => r.ticker = t)).map (·.EMA_20) =
      emaSeries 20 (((sortRows tbl.rows).filter (fun r => r.ticker = t)).map (·.close)) ∧
    emaAlpha 10 = 2 / (10 + 1) ∧ emaAlpha 20 = 2 / (20 + 1) ∧
    (∀ r ∈ (add_technical_indicators tbl).rows.filter (fun r => r.ticker = t),
      r.EMA_10 ≠ none ∧ r.EMA_20 ≠ none) ∧
    (∀ (α : ℚ) (cs : List ℚ),
      (ewmMean α cs).length = cs.length ∧
      (0 < cs.length → (ewmMean α cs).getD 0 0 = cs.getD 0 0) ∧
      (∀ i, i + 1 < cs.length →
        (ewmMean α cs).getD (i + 1) 0 =
          α * cs.getD (i + 1) 0 + (1 - α) * ((ewmMean α cs).getD i 0))) := by
  have hrows : (add_technical_indicators tbl).rows = enrichRows tbl.rows := rfl
  refine ⟨?_, ?_, rfl, rfl, ?_, ?_⟩
  · rw [hrows, enriched_filter_ticker]
    exact enrichBlock_map_EMA_10 _
  · rw [hrows, enriched_filter_ticker]
    exact enrichBlock_map_EMA_20 _
  · intro r hr
    constructor
    · have hmem : r.EMA_10 ∈ ((add_technical_indicators tbl).rows.filter
          (fun r => r.ticker = t)).map (·.EMA_10) := List.mem_map_of_mem _ hr
      rw [hrows, enriched_filter_ticker, enrichBlock_map_EMA_10] at hmem
      rcases List.mem_map.mp hmem with ⟨q, _, hq⟩
      rw [← hq]
      simp
    · have hmem : r.EMA_20 ∈ ((add_technical_indicators tbl).rows.filter
          (fun r => r.ticker = t)).map (·.EMA_20) := List.mem_map_of_mem _ hr
      rw [hrows, enriched_filter_ticker, enrichBlock_map_EMA_20] at hmem
      rcases List.mem_map.mp hmem with ⟨q, _, hq⟩
      rw [← hq]
      simp
  · intro α cs
    exact ⟨ewmMean_length α cs, ewmMean_getD_zero α cs,
      fun i hi => ewmMean_getD_succ α cs i hi⟩

theorem ema_recursion_witness :
    (ewmMean (emaAlpha 10) [(1 : ℚ), 2]).getD 1 0 =
      emaAlpha 10 * ([(1 : ℚ), 2].getD 1 0) +
        (1 - emaAlpha 10) * ((ewmMean (emaAlpha 10) [(1 : ℚ), 2]).getD 0 0) :=
  ((ema_recursion ⟨monthlyCols, []⟩ "A").2.2.2.2.2 (emaAlpha 10)
    [(1 : ℚ), 2]).2.2 0 (by decide)

/-- C6: per ticker, the SMA columns hold `none` (pandas `NaN`) at the
first `k−1` positions and the arithmetic mean of the trailing `k` closes
from position `k` on, one output value per input row (no dropped rows,
never zero-filled). -/
theorem sma_window (tbl : Table) (t : String) :
    ((add_technical_indicators tbl).rows.filter (fun r => r.ticker = t)).map (·.SMA_10) =
      smaSeries 10 (((sortRows tbl.rows).filter (fun r => r.ticker = t)).map (·.close)) ∧
    ((add_technical_indicators tbl).rows.filter (fun r => r.ticker = t)).map (·.SMA_20) =
      smaSeries 20 (((sortRows tbl.rows).filter (fun r => r.ticker = t)).map (·.close)) ∧
    ((add_technical_indicators tbl).rows.filter (fun r => r.ticker = t)).length =
      ((sortRows tbl.rows).filter (fun r => r.ticker = t)).length ∧
    (∀ (k : Nat) (cs : List ℚ), (smaSeries k cs).length = cs.length) ∧
    (∀ (k : Nat) (cs : List ℚ) (i : Nat), i < cs.length → i + 1 < k →
      (smaSeries k cs).getD i none = none) ∧
    (∀ (k : Nat) (cs : List ℚ) (i : Nat), i < cs.length → k ≤ i + 1 →
      (smaSeries k cs).getD i none =
        some ((((cs.take (i + 1)).drop (i + 1 - k)).sum) / (k : ℚ)) ∧
      (((cs.take (i + 1)).drop (i + 1 - k))).length = k) := by
  have hrows : (add_technical_indicators tbl).rows = enrichRows tbl.rows := rfl
  refine ⟨?_, ?_, ?_, fun k cs => smaSeries_length k cs, ?_, ?_⟩
  · rw [hrows, enriched_filter_ticker]
    exact enrichBlock_map_SMA_10 _
  · rw [hrows, enriched_filter_ticker]
    exact enrichBlock_map_SMA_20 _
  · rw [hrows, enriched_filter_ticker]
    exact enrichBlock_length _
  · intro k cs i hi hik
    rw [show smaSeries k cs = rollingMean k cs from rfl,
      rollingMean_getD k cs i hi, if_pos hik]
  · intro k cs i hi hk
    refine ⟨?_, window_length k cs i hi hk⟩
    rw [show smaSeries k cs = rollingMean k cs from rfl,
      rollingMean_getD k cs i hi, if_neg (by omega)]

theorem sma_window_witness :
    (smaSeries 2 [(1 : ℚ), 3]).getD 0 none = none ∧
    ((smaSeries 2 [(1 : ℚ), 3]).getD 1 none =
      some (((([(1 : ℚ), 3].take 2).drop 0).sum) / (2 : ℚ)) ∧
      ((([(1 : ℚ), 3].take 2).drop 0)).length = 2) :=
  ⟨(sma_window ⟨monthlyCols, []⟩ "A").2.2.2.2.1 2 [(1 : ℚ), 3] 0
      (by decide) (by decide),
    (sma_window ⟨monthlyCols, []⟩ "A").2.2.2.2.2 2 [(1 : ℚ), 3] 1
      (by decide) (by decide)⟩

/-- C7: two-run noninterference of the Indicator Calculator: if two
monthly tables agree on ticker `t`'s rows, the enriched outputs agree on
ticker `t`'s rows — one ticker's indicators never read another ticker's
data. -/
theorem ticker_noninterference (tbl₁ tbl₂ : Table) (t : String)
    (h : tbl₁.rows.filter (fun r => r.ticker = t) =
      tbl₂.rows.filter (fun r => r.ticker = t)) :
    (add_technical_indicators tbl₁).rows.filter (fun r => r.ticker = t) =
      (add_technical_indicators tbl₂).rows.filter (fun r => r.ticker = t) := by
  have h₁ : (add_technical_indicators tbl₁).rows = enrichRows tbl₁.rows := rfl
  have h₂ : (add_technical_indicators tbl₂).rows = enrichRows tbl₂.rows := rfl
  rw [h₁, h₂, enriched_filter_ticker, enriched_filter_ticker,
    sortRows_filter_ticker, sortRows_filter_ticker, h]

/-! ### Concrete sample rows (used by witnesses and counterexamples) -/

def wRowA1 : ERow :=
  { ticker := "A", date := ⟨2023, 1, 31⟩, «open» := 1, high := 1, low := 1,
    close := 1, volume := 1 }

def wRowA2 : ERow :=
  { ticker := "A", date := ⟨2023, 2, 28⟩, «open» := 2, high := 2, low := 2,
    close := 2, volume := 1 }

def wRowB : ERow :=
  { ticker := "B", date := ⟨2023, 1, 31⟩, «open» := 3, high := 3, low := 3,
    close := 3, volume := 1 }

def wRowB' : ERow :=
  { ticker := "B", date := ⟨2023, 1, 31⟩, «open» := 4, high := 4, low := 4,
    close := 4, volume := 2 }

theorem ticker_noninterference_witness :
    (add_technical_indicators ⟨monthlyCols, [wRowA1, wRowA2, wRowB]⟩).rows.filter
        (fun r => r.ticker = "A") =
      (add_technical_indicators ⟨monthlyCols, [wRowA1, wRowA2, wRowB']⟩).rows.filter
        (fun r => r.ticker = "A") :=
  ticker_noninterference ⟨monthlyCols, [wRowA1, wRowA2, wRowB]⟩
    ⟨monthlyCols, [wRowA1, wRowA2, wRowB']⟩ "A" (by decide)

/-! ### Aggregation: group keys -/

theorem mkey_aggRow (rows : List ERow) (k : String × Nat × Nat) :
    mkey (aggRow rows k) = k := by
  rcases k with ⟨t, y, m⟩
  rfl

theorem sortedKeys_nodup (rows : List ERow) : (sortedKeys rows).Nodup :=
  ((List.perm_insertionSort keyle _).nodup_iff).mpr (List.nodup_dedup _)

theorem mem_sortedKeys (rows : List ERow) (k : String × Nat × Nat) :
    k ∈ sortedKeys rows ↔ k ∈ rows.map mkey := by
  unfold sortedKeys
  rw [List.mem_insertionSort, List.mem_dedup]

theorem filter_eq_of_nodup (k : String × Nat × Nat) :
    ∀ (l : List (String × Nat × Nat)), l.Nodup →
    l.filter (fun x => x = k) = if k ∈ l then [k] else []
  | [], _ => by simp
  | a :: l, h => by
    by_cases hak : a = k
    · subst hak
      rw [List.filter_cons, if_pos (by simp), if_pos (by simp)]
      rw [List.filter_eq_nil_iff.mpr (fun x hx => by
        simp only [decide_eq_true_eq]
        exact fun hc => (List.nodup_cons.mp h).1 (hc ▸ hx))]
    · rw [List.filter_cons, if_neg (by simpa using hak),
        filter_eq_of_nodup k l (List.nodup_cons.mp h).2]
      by_cases hkl : k ∈ l
      · rw [if_pos hkl, if_pos (List.mem_cons_of_mem _ hkl)]
      · rw [if_neg hkl, if_neg (by
          simp only [List.mem_cons, not_or]
          exact ⟨fun hc => hak hc.symm, hkl⟩)]

/-- Each group key contributes exactly one monthly row, carrying that
key. -/
theorem aggRows_filter_key (rows : List ERow) (k : String × Nat × Nat) :
    (aggRows rows).filter (fun m => mkey m = k) =
      if k ∈ sortedKeys rows then [aggRow rows k] else [] := by
  unfold aggRows
  rw [List.filter_map]
  have hcong : ((fun m => decide (mkey m = k)) ∘ aggRow rows) =
      fun k' => decide (k' = k) := by
    funext k'
    simp [Function.comp, mkey_aggRow]
  rw [hcong, filter_eq_of_nodup k _ (sortedKeys_nodup rows)]
  by_cases hk : k ∈ sortedKeys rows
  · rw [if_pos hk, if_pos hk]
    rfl
  · rw [if_neg hk, if_neg hk]
    rfl

def c1row : ERow :=
  { ticker := "A", date := ⟨2023, 1, 5⟩, «open» := 1, high := 3, low := 0,
    close := 2, volume := 7 }

/-- C1 counterexample: a month with exactly one row.  The aggregated
`open` is the row's own `open` field (the `{open: first}` aggregation),
not the row's `close`: here the monthly row has `open = 1` while the
input row's close is `2`. -/
theorem single_row_open_counterexample :
    (aggregate_to_monthly ⟨monthlyCols, [c1row]⟩).toOption.map
        (fun u => u.rows.map (fun m => (m.«open», m.close))) =
      some [((1 : ℚ), (2 : ℚ))] ∧
    c1row.close = 2 ∧ (1 : ℚ) ≠ 2 := by
  refine ⟨by with_unfolding_all rfl, by with_unfolding_all rfl, by norm_num⟩

/-- C1 (amended): a `(ticker, month)` group holding exactly one row
yields a monthly row with `open` = that row's own `open` field (not its
close), `close` = its close, `high` = its high, `low` = its low and
`volume` = its volume. -/
theorem single_row_group_aggregates (cols : List String) (rows : List ERow)
    (k : String × Nat × Nat) (r : ERow)
    (hcols : requiredCols.all (fun c => cols.contains c) = true)
    (hg : rows.filter (fun x => mkey x = k) = [r]) :
    aggregate_to_monthly ⟨cols, rows⟩ = .ok ⟨monthlyCols, aggRows rows⟩ ∧
    (aggRows rows).filter (fun m => mkey m = k) =
      [{ ticker := k.1, date := monthEnd k, «open» := r.«open», high := r.high,
         low := r.low, close := r.close, volume := r.volume }] := by
  constructor
  · unfold aggregate_to_monthly
    rw [if_pos hcols]
  · rw [aggRows_filter_key]
    have hrmem : r ∈ rows.filter (fun x => mkey x = k) := by
      rw [hg]; exact List.mem_singleton_self r
    have hk : k ∈ sortedKeys rows := (mem_sortedKeys rows k).mpr
      (List.mem_map.mpr ⟨r, (List.mem_filter.mp hrmem).1,
        of_decide_eq_true (List.mem_filter.mp hrmem).2⟩)
    rw [if_pos hk]
    congr 1
    unfold aggRow groupRows
    rw [hg]
    simp [firstField, lastField, omax, omin]

def c9a : ERow :=
  { ticker := "A", date := ⟨2023, 1, 5⟩, «open» := 1, high := 1, low := 1,
    close := 1, volume := 1 }

def c9b : ERow :=
  { ticker := "A", date := ⟨2023, 1, 20⟩, «open» := 2, high := 2, low := 2,
    close := 2, volume := 1 }

/-- C9 counterexample: presenting a `(ticker, month)` group out of
chronological order: the group `[c9b, c9a]` (later date first) yields
monthly `open = 2` — the `open` of the *presented-first* row `c9b` — even
though `c9a` is the chronologically first row of the group and has
`open = 1`.  `{open: 'first'}` follows presentation order, not
chronology. -/
theorem agg_open_presented_order_counterexample :
    dateLe c9a.date c9b.date ∧ c9a.date ≠ c9b.date ∧ mkey c9a = mkey c9b ∧
    (aggregate_to_monthly ⟨monthlyCols, [c9b, c9a]⟩).toOption.map
        (fun u => u.rows.map (·.«open»)) = some [(2 : ℚ)] ∧
    (2 : ℚ) ≠ c9a.«open» := by
  refine ⟨by decide, by decide, by decide, by with_unfolding_all rfl, ?_⟩
  show (2 : ℚ) ≠ 1
  norm_num

theorem omax_perm {l₁ l₂ : List ℚ} (h : l₁.Perm l₂) : omax l₁ = omax l₂ := by
  unfold omax
  haveI : LeftCommutative (fun (x : ℚ) (acc : Option ℚ) => some (acc.elim x (max x))) :=
    ⟨fun a b acc => by
      cases acc with
      | none => simp [max_comm]
      | some z => simp [max_left_comm]⟩
  exact h.foldr_eq none

theorem omin_perm {l₁ l₂ : List ℚ} (h : l₁.Perm l₂) : omin l₁ = omin l₂ := by
  unfold omin
  haveI : LeftCommutative (fun (x : ℚ) (acc : Option ℚ) => some (acc.elim x (min x))) :=
    ⟨fun a b acc => by
      cases acc with
      | none => simp [min_comm]
      | some z => simp [min_left_comm]⟩
  exact h.foldr_eq none

/-- Two inputs with the same set of `(ticker, month)` keys have the same
sorted key list. -/
theorem sortedKeys_ext {l₁ l₂ : List ERow}
    (h : ∀ x, x ∈ l₁.map mkey ↔ x ∈ l₂.map mkey) :
    sortedKeys l₁ = sortedKeys l₂ := by
  have hperm : ((l₁.map mkey).dedup).Perm ((l₂.map mkey).dedup) :=
    (List.perm_ext_iff_of_nodup (List.nodup_dedup _) (List.nodup_dedup _)).mpr
      (fun x => by rw [List.mem_dedup, List.mem_dedup]; exact h x)
  refine List.eq_of_perm_of_sorted ?_ (List.sorted_insertionSort keyle _)
    (List.sorted_insertionSort keyle _)
  exact (List.perm_insertionSort keyle _).trans
    (hperm.trans (List.perm_insertionSort keyle _).symm)

/-- A key occurs among a table's keys iff its group is nonempty. -/
theorem mem_map_mkey_iff_filter_ne_nil (l : List ERow) (k : String × Nat × Nat) :
    k ∈ l.map mkey ↔ l.filter (fun r => mkey r = k) ≠ [] := by
  constructor
  · intro hk
    rcases List.mem_map.mp hk with ⟨r, hr, hrk⟩
    intro hnil
    have : r ∈ l.filter (fun r => mkey r = k) :=
      List.mem_filter.mpr ⟨hr, by simpa using hrk⟩
    rw [hnil] at this
    simp at this
  · intro hne
    rcases List.exists_mem_of_ne_nil _ hne with ⟨r, hr⟩
    have := List.mem_filter.mp hr
    exact List.mem_map.mpr ⟨r, this.1, of_decide_eq_true this.2⟩

/-- C9 (amended): permuting the rows inside one `(ticker, month)` group
leaves the group's `high`, `low` and `volume` (max, min, sum) unchanged,
leaves every other group's monthly row unchanged, and leaves the key
structure unchanged; `open`/`close`, however, are taken from the first
and last rows of the group *in presented order* (they coincide with the
chronological first/last exactly when the group is presented in
chronological order, as the pipeline's sorted input is). -/
theorem agg_group_permutation (l₁ l₂ : List ERow) (k : String × Nat × Nat)
    (hg : (l₁.filter (fun r => mkey r = k)).Perm (l₂.filter (fun r => mkey r = k)))
    (ho : ∀ k', k' ≠ k →
      l₁.filter (fun r => mkey r = k') = l₂.filter (fun r => mkey r = k')) :
    sortedKeys l₁ = sortedKeys l₂ ∧
    (aggRow l₁ k).high = (aggRow l₂ k).high ∧
    (aggRow l₁ k).low = (aggRow l₂ k).low ∧
    (aggRow l₁ k).volume = (aggRow l₂ k).volume ∧
    (∀ k', k' ≠ k → aggRow l₁ k' = aggRow l₂ k') ∧
    (aggRow l₁ k).«open» = firstField (·.«open») (groupRows l₁ k) ∧
    (aggRow l₁ k).close = lastField (·.close) (groupRows l₁ k) := by
  refine ⟨?_, ?_, ?_, ?_, ?_, rfl, rfl⟩
  · apply sortedKeys_ext
    intro x
    rw [mem_map_mkey_iff_filter_ne_nil, mem_map_mkey_iff_filter_ne_nil]
    by_cases hx : x = k
    · subst hx
      constructor
      · intro h1 h2
        rw [h2] at hg
        exact h1 hg.eq_nil
      · intro h2 h1
        rw [h1] at hg
        exact h2 hg.symm.eq_nil
    · rw [ho x hx]
  · unfold aggRow groupRows
    dsimp only
    rw [omax_perm (hg.map (·.high))]
  · unfold aggRow groupRows
    dsimp only
    rw [omin_perm (hg.map (·.low))]
  · unfold aggRow groupRows
    dsimp only
    exact (hg.map (·.volume)).sum_eq
  · intro k' hk'
    unfold aggRow groupRows
    rw [ho k' hk']

/-! ### Concrete loader data -/

def wRaw1 : RawRow := ⟨"B", "2023-01-05", 1, 2, 0, 1, 10⟩

def wRaw2 : RawRow := ⟨"A", "2023-01-07", 3, 4, 1, 2, 5⟩

def rawCols : List String :=
  ["ticker", "date", "open", "high", "low", "close", "volume"]

def wRawTbl : RawTable := ⟨rawCols, [wRaw1, wRaw2]⟩

def wNorm1 : ERow :=
  { ticker := "B", date := ⟨2023, 1, 5⟩, «open» := 1, high := 2, low := 0,
    close := 1, volume := 10 }

def wNorm2 : ERow :=
  { ticker := "A", date := ⟨2023, 1, 7⟩, «open» := 3, high := 4, low := 1,
    close := 2, volume := 5 }

def wLoaded : Table := ⟨rawCols, [wNorm2, wNorm1]⟩

theorem loader_sorts_stably_witness :
    ∃ ns, parseRows wRawTbl.rows = some ns ∧
      wLoaded.rows.Perm ns ∧
      wLoaded.rows.Pairwise rowle ∧
      ∀ k : String × Date,
        wLoaded.rows.filter (fun r => rkey r = k) =
          ns.filter (fun r => rkey r = k) :=
  loader_sorts_stably wRawTbl wLoaded (by with_unfolding_all rfl)

theorem single_row_group_aggregates_witness :
    aggregate_to_monthly ⟨rawCols, [c1row]⟩ = .ok ⟨monthlyCols, aggRows [c1row]⟩ ∧
    (aggRows [c1row]).filter (fun m => mkey m = ("A", 2023, 1)) =
      [{ ticker := ("A", 2023, 1).1, date := monthEnd ("A", 2023, 1),
         «open» := c1row.«open», high := c1row.high, low := c1row.low,
         close := c1row.close, volume := c1row.volume }] :=
  single_row_group_aggregates rawCols [c1row] ("A", 2023, 1) c1row
    (by decide) (by decide)

theorem agg_group_permutation_witness :
    sortedKeys [c9a, c9b] = sortedKeys [c9b, c9a] ∧
    (aggRow [c9a, c9b] ("A", 2023, 1)).high = (aggRow [c9b, c9a] ("A", 2023, 1)).high ∧
    (aggRow [c9a, c9b] ("A", 2023, 1)).low = (aggRow [c9b, c9a] ("A", 2023, 1)).low ∧
    (aggRow [c9a, c9b] ("A", 2023, 1)).volume = (aggRow [c9b, c9a] ("A", 2023, 1)).volume ∧
    (∀ k', k' ≠ ("A", 2023, 1) →
      aggRow [c9a, c9b] k' = aggRow [c9b, c9a] k') ∧
    (aggRow [c9a, c9b] ("A", 2023, 1)).«open» =
      firstField (·.«open») (groupRows [c9a, c9b] ("A", 2023, 1)) ∧
    (aggRow [c9a, c9b] ("A", 2023, 1)).close =
      lastField (·.close) (groupRows [c9a, c9b] ("A", 2023, 1)) := by
  have hma : mkey c9a = ("A", 2023, 1) := by decide
  have hmb : mkey c9b = ("A", 2023, 1) := by decide
  refine agg_group_permutation [c9a, c9b] [c9b, c9a] ("A", 2023, 1) ?_ ?_
  · have h1 : [c9a, c9b].filter (fun r => mkey r = ("A", 2023, 1)) = [c9a, c9b] := by
      decide
    have h2 : [c9b, c9a].filter (fun r => mkey r = ("A", 2023, 1)) = [c9b, c9a] := by
      decide
    rw [h1, h2]
    exact List.Perm.swap c9b c9a []
  · intro k' hk'
    have hnil1 : [c9a, c9b].filter (fun r => mkey r = k') = [] := by
      apply List.filter_eq_nil_iff.mpr
      intro r hr
      simp only [decide_eq_true_eq]
      intro hc
      rcases List.mem_cons.mp hr with h | h
      · exact hk' (hc.symm.trans (h ▸ hma))
      · rw [List.mem_singleton.mp h] at hc
        exact hk' (hc.symm.trans hmb)
    have hnil2 : [c9b, c9a].filter (fun r => mkey r = k') = [] := by
      apply List.filter_eq_nil_iff.mpr
      intro r hr
      simp only [decide_eq_true_eq]
      intro hc
      rcases List.mem_cons.mp hr with h | h
      · exact hk' (hc.symm.trans (h ▸ hmb))
      · rw [List.mem_singleton.mp h] at hc
        exact hk' (hc.symm.trans hma)
    rw [hnil1, hnil2]

/-! ### Partition writer: row conservation -/

theorem enrichRows_length (rows : List ERow) :
    (enrichRows rows).length = rows.length := by
  rw [enrichRows_eq_flatMap]
  unfold List.flatMap
  rw [List.length_flatten, List.map_map]
  have hcong : ∀ t ∈ tickersOf (sortRows rows),
      (List.length ∘ fun t => enrichBlock ((sortRows rows).filter (fun r => r.ticker = t))) t =
        ((sortRows rows).filter (fun r => r.ticker = t)).length :=
    fun t _ => enrichBlock_length _
  rw [List.map_congr_left hcong, sum_len_filter_tickersOf (sortRows rows),
    (sortRows_perm rows).length_eq]

theorem aggRows_length (rows : List ERow) :
    (aggRows rows).length = ((rows.map mkey).dedup).length := by
  unfold aggRows
  rw [List.length_map]
  exact (List.perm_insertionSort keyle _).length_eq

/-- C8 (writer contract): on a successful run the writer emits the
pipeline result; the artifacts are exactly one per distinct ticker of the
enriched table (first-appearance order, no duplicates), named
`result_<TICKER>.csv` with the symbol verbatim; each artifact holds
exactly its own ticker's rows in table order; and the artifact row counts
sum to the number of distinct `(ticker, month)` pairs of the normalized
input. -/
theorem partition_writer_contract (tblR : RawTable) (n m : Table)
    (h1 : load_and_prepare_data tblR = .ok n)
    (h2 : aggregate_to_monthly n = .ok m) :
    runPipeline tblR = .ok (save_by_ticker (add_technical_indicators m)) ∧
    save_by_ticker (add_technical_indicators m) =
      (tickersOf (add_technical_indicators m).rows).map (fun s =>
        { name := "result_" ++ s ++ ".csv"
          header := (add_technical_indicators m).cols
          rows := (add_technical_indicators m).rows.filter (fun r => r.ticker = s) }) ∧
    (tickersOf (add_technical_indicators m).rows).Nodup ∧
    (∀ s, s ∈ tickersOf (add_technical_indicators m).rows ↔
      s ∈ (add_technical_indicators m).rows.map (·.ticker)) ∧
    (∀ s ∈ tickersOf (add_technical_indicators m).rows,
      ∀ r ∈ (add_technical_indicators m).rows.filter (fun r => r.ticker = s),
        r.ticker = s) ∧
    ((save_by_ticker (add_technical_indicators m)).map (fun a => a.rows.length)).sum =
      ((n.rows.map mkey).dedup).length := by
  refine ⟨?_, rfl, nodup_uniqueFirst _, fun s => mem_uniqueFirst _ s, ?_, ?_⟩
  · unfold runPipeline
    rw [h1]
    show (aggregate_to_monthly n).bind _ = _
    rw [h2]
    rfl
  · intro s _ r hr
    exact of_decide_eq_true (List.mem_filter.mp hr).2
  · have hmrows : m.rows = aggRows n.rows := by
      unfold aggregate_to_monthly at h2
      split at h2
      · cases h2
        rfl
      · cases h2
    unfold save_by_ticker
    rw [List.map_map]
    have hcong : ∀ s ∈ tickersOf (add_technical_indicators m).rows,
        ((fun a => a.rows.length) ∘ fun s => Artifact.mk ("result_" ++ s ++ ".csv")
          (add_technical_indicators m).cols
          ((add_technical_indicators m).rows.filter (fun r => r.ticker = s))) s =
          ((add_technical_indicators m).rows.filter (fun r => r.ticker = s)).length :=
      fun s _ => rfl
    rw [List.map_congr_left hcong,
      sum_len_filter_tickersOf (add_technical_indicators m).rows]
    show (enrichRows m.rows).length = _
    rw [enrichRows_length, hmrows, aggRows_length]

theorem partition_writer_contract_witness :
    runPipeline wRawTbl =
      .ok (save_by_ticker (add_technical_indicators ⟨monthlyCols, aggRows wLoaded.rows⟩)) ∧
    save_by_ticker (add_technical_indicators ⟨monthlyCols, aggRows wLoaded.rows⟩) =
      (tickersOf (add_technical_indicators ⟨monthlyCols, aggRows wLoaded.rows⟩).rows).map (fun s =>
        { name := "result_" ++ s ++ ".csv"
          header := (add_technical_indicators ⟨monthlyCols, aggRows wLoaded.rows⟩).cols
          rows := (add_technical_indicators ⟨monthlyCols, aggRows wLoaded.rows⟩).rows.filter
            (fun r => r.ticker = s) }) ∧
    (tickersOf (add_technical_indicators ⟨monthlyCols, aggRows wLoaded.rows⟩).rows).Nodup ∧
    (∀ s, s ∈ tickersOf (add_technical_indicators ⟨monthlyCols, aggRows wLoaded.rows⟩).rows ↔
      s ∈ (add_technical_indicators ⟨monthlyCols, aggRows wLoaded.rows⟩).rows.map (·.ticker)) ∧
    (∀ s ∈ tickersOf (add_technical_indicators ⟨monthlyCols, aggRows wLoaded.rows⟩).rows,
      ∀ r ∈ (add_technical_indicators ⟨monthlyCols, aggRows wLoaded.rows⟩).rows.filter
        (fun r => r.ticker = s), r.ticker = s) ∧
    ((save_by_ticker (add_technical_indicators ⟨monthlyCols, aggRows wLoaded.rows⟩)).map
      (fun a => a.rows.length)).sum = ((wLoaded.rows.map mkey).dedup).length :=
  partition_writer_contract wRawTbl wLoaded ⟨monthlyCols, aggRows wLoaded.rows⟩
    (by with_unfolding_all rfl) (by with_unfolding_all rfl)

/-! ### Error handling -/

def c3cols : List String := ["ticker", "date", "open", "high", "low", "close"]

def c3raw : RawRow := ⟨"A", "2023-01-05", 1, 2, 0, 1, 10⟩

def c3norm : ERow :=
  { ticker := "A", date := ⟨2023, 1, 5⟩, «open» := 1, high := 2, low := 0,
    close := 1, volume := 10 }

/-- C3 counterexample: `volume` is a required column, yet on an input
lacking it the Loader does *not* fail with a `SchemaError` — it returns
normally (`load_and_prepare_data` only touches `date` and `ticker`; the
missing column is only hit later, in the aggregation stage). -/
theorem loader_missing_column_counterexample :
    ("volume" ∈ requiredCols ∧ "volume" ∉ c3cols) ∧
    load_and_prepare_data ⟨c3cols, [c3raw]⟩ = .ok ⟨c3cols, [c3norm]⟩ :=
  ⟨⟨by decide, by decide⟩, by with_unfolding_all rfl⟩

/-- C3 (amended): an unparseable date fails the run with a `ParseError`
(provided the `date` column exists to be parsed); a missing `date` column
fails the run with a `SchemaError` in the Loader; any other missing
required column fails the run with a `SchemaError` — raised by the Loader
for `ticker`, by the Monthly Aggregator for the OHLCV columns — and in
every case the first error aborts the entire pipeline (no stage skips the
bad row and continues). -/
theorem fail_fast_errors (tbl : RawTable) :
    ("date" ∈ tbl.cols → parseRows tbl.rows = none →
      runPipeline tbl = .error .parseError) ∧
    ("date" ∉ tbl.cols → runPipeline tbl = .error .schemaError) ∧
    (∀ c ∈ requiredCols, c ∉ tbl.cols → parseRows tbl.rows ≠ none →
      runPipeline tbl = .error .schemaError) ∧
    (∀ e, load_and_prepare_data tbl = .error e → runPipeline tbl = .error e) ∧
    (∀ n e, load_and_prepare_data tbl = .ok n →
      aggregate_to_monthly n = .error e → runPipeline tbl = .error e) := by
  have hprop : ∀ e, load_and_prepare_data tbl = .error e →
      runPipeline tbl = .error e := by
    intro e he
    unfold runPipeline
    rw [he]
    rfl
  have hprop2 : ∀ n e, load_and_prepare_data tbl = .ok n →
      aggregate_to_monthly n = .error e → runPipeline tbl = .error e := by
    intro n e hn he
    unfold runPipeline
    rw [hn]
    show (aggregate_to_monthly n).bind _ = _
    rw [he]
    rfl
  refine ⟨?_, ?_, ?_, hprop, hprop2⟩
  · intro hdate hparse
    apply hprop
    unfold load_and_prepare_data
    rw [if_pos hdate, hparse]
  · intro hdate
    apply hprop
    unfold load_and_prepare_data
    rw [if_neg hdate]
  · intro c hc hcn hpar
    by_cases hdate : "date" ∈ tbl.cols
    · rcases Option.ne_none_iff_exists'.mp hpar with ⟨ns, hns⟩
      by_cases hticker : "ticker" ∈ tbl.cols
      · have hload : load_and_prepare_data tbl = .ok ⟨tbl.cols, sortRows ns⟩ := by
          unfold load_and_prepare_data
          rw [if_pos hdate, hns]
          show (if "ticker" ∈ tbl.cols then
              (Except.ok ⟨tbl.cols, sortRows ns⟩ : Except PError Table)
            else .error .schemaError) = _
          rw [if_pos hticker]
        have hagg : aggregate_to_monthly ⟨tbl.cols, sortRows ns⟩ =
            .error .schemaError := by
          unfold aggregate_to_monthly
          rw [if_neg ?hcna]
          case hcna =>
            intro hall
            have hc' := List.all_eq_true.mp hall c hc
            exact hcn (List.mem_of_elem_eq_true hc')
        exact hprop2 _ _ hload hagg
      · apply hprop
        unfold load_and_prepare_data
        rw [if_pos hdate, hns]
        show (if "ticker" ∈ tbl.cols then
            (Except.ok ⟨tbl.cols, sortRows ns⟩ : Except PError Table)
          else .error .schemaError) = _
        rw [if_neg hticker]
    · apply hprop
      unfold load_and_prepare_data
      rw [if_neg hdate]

theorem fail_fast_errors_witness :
    runPipeline ⟨c3cols, [c3raw]⟩ = .error .schemaError :=
  (fail_fast_errors ⟨c3cols, [c3raw]⟩).2.2.1 "volume" (by decide) (by decide)
    (by with_unfolding_all decide)

/-! ### Output artifact header -/

/-- The header every artifact is written with. -/
def writtenHeader : List String :=
  ["ticker", "date", "open", "close", "high", "low", "volume",
   "SMA_10", "SMA_20", "EMA_10", "EMA_20"]

/-- C4 counterexample: the artifacts' header order is
`ticker, date, open, close, high, low, volume, SMA_10, SMA_20, EMA_10,
EMA_20` — the aggregation dict lists `close` before `high`/`low` — not
the claimed `open, high, low, close` order. -/
theorem header_order_counterexample :
    (save_by_ticker (add_technical_indicators ⟨monthlyCols, [wRowA1]⟩)).map
        (·.header) = [writtenHeader] ∧
    writtenHeader ≠
      ["ticker", "date", "open", "high", "low", "close", "volume",
       "SMA_10", "SMA_20", "EMA_10", "EMA_20"] :=
  ⟨by with_unfolding_all rfl, by decide⟩

/-- C4 (amended): every artifact of a successful run has the header
`ticker, date, open, close, high, low, volume, SMA_10, SMA_20, EMA_10,
EMA_20` and nothing else — in particular no row-index column. -/
theorem artifact_header_order (tbl : RawTable) (arts : List Artifact)
    (h : runPipeline tbl = .ok arts) :
    ∀ a ∈ arts, a.header = writtenHeader := by
  unfold runPipeline at h
  cases hload : load_and_prepare_data tbl with
  | error e =>
    rw [hload] at h
    cases h
  | ok n =>
    rw [hload] at h
    replace h : (aggregate_to_monthly n).bind _ = _ := h
    cases hagg : aggregate_to_monthly n with
    | error e =>
      rw [hagg] at h
      cases h
    | ok m =>
      rw [hagg] at h
      have harts : arts = save_by_ticker (add_technical_indicators m) := by
        cases h
        rfl
      have hm : m.cols = monthlyCols := by
        unfold aggregate_to_monthly at hagg
        split at hagg
        · cases hagg
          rfl
        · cases hagg
      intro a ha
      rw [harts] at ha
      unfold save_by_ticker at ha
      rcases List.mem_map.mp ha with ⟨s, _, hs⟩
      rw [← hs]
      show (add_technical_indicators m).cols = writtenHeader
      show m.cols ++ indicatorCols = writtenHeader
      rw [hm]
      rfl

theorem artifact_header_order_witness :
    (Artifact.mk ("result_" ++ "A" ++ ".csv")
      (add_technical_indicators ⟨monthlyCols, aggRows wLoaded.rows⟩).cols
      ((add_technical_indicators ⟨monthlyCols, aggRows wLoaded.rows⟩).rows.filter
        (fun r => r.ticker = "A"))).header = writtenHeader :=
  artifact_header_order wRawTbl
    (save_by_ticker (add_technical_indicators ⟨monthlyCols, aggRows wLoaded.rows⟩))
    (by with_unfolding_all rfl) _
    (List.mem_map_of_mem _
      (show "A" ∈ tickersOf
        (add_technical_indicators ⟨monthlyCols, aggRows wLoaded.rows⟩).rows by decide))

/-! ### Frame property of the indicator stage -/

/-- Net effect of the heap-level indicator stage: one fresh frame is
allocated at `s.next`, holding exactly the pure
`add_technical_indicators` of the argument frame, and nothing else
changes. -/
theorem add_technical_indicators_heap_eq (s : PDState) (r : Nat) :
    add_technical_indicators_heap s r =
      (⟨fun i => if i = s.next then add_technical_indicators (s.heap r)
        else s.heap i, s.next + 1⟩, s.next) := by
  unfold add_technical_indicators_heap alloc writeAt assignIndicator
    add_technical_indicators enrichRows
  refine Prod.ext ?_ rfl
  refine congrArg₂ PDState.mk ?_ rfl
  funext i
  by_cases hi : i = s.next
  · subst hi
    simp [indicatorCols, List.append_assoc]
  · simp [hi]

/-- C10: running step 3 through the heap model leaves every pre-existing
frame — in particular the caller's monthly table — untouched: the sort
allocates a fresh frame and all four column writes hit only that fresh
frame, whose final contents are exactly the pure
`add_technical_indicators` of the argument. -/
theorem indicators_leave_input_unchanged (s : PDState) (r : Nat)
    (h : r < s.next) :
    (∀ i, i < s.next →
      ((add_technical_indicators_heap s r).1).heap i = s.heap i) ∧
    ((add_technical_indicators_heap s r).1).heap
        (add_technical_indicators_heap s r).2 =
      add_technical_indicators (s.heap r) ∧
    (add_technical_indicators_heap s r).2 ≠ r := by
  rw [add_technical_indicators_heap_eq]
  refine ⟨?_, ?_, ?_⟩
  · intro i hi
    show (if i = s.next then _ else s.heap i) = s.heap i
    rw [if_neg (by omega)]
  · show (if s.next = s.next then _ else _) = _
    rw [if_pos rfl]
  · show s.next ≠ r
    omega

theorem indicators_leave_input_unchanged_witness :
    (∀ i, i < 1 →
      ((add_technical_indicators_heap ⟨fun _ => ⟨monthlyCols, [wRowA1]⟩, 1⟩ 0).1).heap i =
        (fun _ => (⟨monthlyCols, [wRowA1]⟩ : Table)) i) ∧
    ((add_technical_indicators_heap ⟨fun _ => ⟨monthlyCols, [wRowA1]⟩, 1⟩ 0).1).heap
        (add_technical_indicators_heap ⟨fun _ => ⟨monthlyCols, [wRowA1]⟩, 1⟩ 0).2 =
      add_technical_indicators ⟨monthlyCols, [wRowA1]⟩ ∧
    (add_technical_indicators_heap ⟨fun _ => ⟨monthlyCols, [wRowA1]⟩, 1⟩ 0).2 ≠ 0 :=
  indicators_leave_input_unchanged ⟨fun _ => ⟨monthlyCols, [wRowA1]⟩, 1⟩ 0
    (by decide)

end StockPipeline
